import Mathlib

/-!
Verification of the audio analysis and rendering pipeline of
`src/src/components/VoiceWaveVisualizer.tsx`.

The component's numeric computations (loudness, dominant-bin scan,
amplitude factor, waveform geometry) are embedded as pure Lean functions
over lists of byte values, with JavaScript number arithmetic modelled by
exact rational arithmetic (`ℚ`).  The lifecycle (`startListening`,
`stopListening`, the toggle button) is embedded as explicit state passing
on a record mirroring the component's refs and reactive state.
-/

namespace VoiceWave

/-- Sum of absolute deviations from the midpoint 128, mirroring the loop
`for (i...) sum += Math.abs(dataArray[i] - 128)` over byte samples. -/
def sumAbsDev : List ℕ → ℚ
  | [] => 0
  | s :: rest => |(s : ℚ) - 128| + sumAbsDev rest

/-- Loudness of a time-domain buffer, mirroring
`Math.min((sum / bufferLength) * 4, 100)`. -/
def loudnessOf (data : List ℕ) : ℚ :=
  min (sumAbsDev data / (data.length : ℚ) * 4) 100

/-- Worst-case buffer built of alternating 0 / 255 samples. -/
def altBuf : ℕ → List ℕ
  | 0 => []
  | n + 1 => 0 :: 255 :: altBuf n

/-- The dominant-bin scan, mirroring the loop
`for (i...) if (frequencyData[i] > maxValue) { maxValue = ...; maxIndex = i }`
with accumulators `(maxValue, maxIndex)` and running index `i`. -/
def scanMaxAux : List ℕ → ℕ → ℕ → ℕ → ℕ × ℕ
  | [], _, maxValue, maxIndex => (maxValue, maxIndex)
  | v :: rest, i, maxValue, maxIndex =>
    if maxValue < v then scanMaxAux rest (i + 1) v i
    else scanMaxAux rest (i + 1) maxValue maxIndex

/-- The scan started as in the source: `maxValue = 0; maxIndex = 0`. -/
def scanMax (l : List ℕ) : ℕ × ℕ := scanMaxAux l 0 0 0

/-- The dominant-bin index produced by the scan. -/
def maxIndexOf (l : List ℕ) : ℕ := (scanMax l).2

/-- Pitch proxy, mirroring `Math.min(maxIndex / 20, 100)`. -/
def normalizedPitchOf (freq : List ℕ) : ℚ :=
  min ((maxIndexOf freq : ℚ) / 20) 100

/-- Amplitude scale factor, mirroring
`(newVolume / 50) * (normalizedPitch / 50 + 0.5)`. -/
def amplitudeFactor (newVolume normalizedPitch : ℚ) : ℚ :=
  newVolume / 50 * (normalizedPitch / 50 + 1 / 2)

/-- The configured analyser window size: `analyser.fftSize = 2048`. -/
def fftSize : ℕ := 2048

/-- The analyser's bin count, half the window size per the Web Audio API. -/
def frequencyBinCount : ℕ := fftSize / 2

/-- Length of the time-domain buffer the tick allocates:
`const bufferLength = analyser.frequencyBinCount;
 const dataArray = new Uint8Array(bufferLength)`. -/
def timeBufferLength : ℕ := frequencyBinCount

/-- Length of the frequency-domain buffer the tick allocates:
`new Uint8Array(analyser.frequencyBinCount)`. -/
def freqBufferLength : ℕ := frequencyBinCount

/-- Polyline vertices of the drawing loop: `x` starts at 0 and advances by
`sliceWidth` each iteration, and each sample `s` contributes the vertex
`(x, canvas.height / 2 + (v * canvas.height) / 2)` with
`v = (s / 128.0 - 1.0) * amplitudeFactor`. -/
def drawPointsAux : List ℕ → ℚ → ℚ → ℚ → ℚ → List (ℚ × ℚ)
  | [], _, _, _, _ => []
  | s :: rest, x, slice, height, ampF =>
    (x, height / 2 + ((s : ℚ) / 128 - 1) * ampF * height / 2)
      :: drawPointsAux rest (x + slice) slice height ampF

/-- The full stroked polyline, with `sliceWidth = canvas.width / bufferLength`. -/
def drawPoints (data : List ℕ) (width height ampF : ℚ) : List (ℚ × ℚ) :=
  drawPointsAux data 0 (width / (data.length : ℚ)) height ampF

/-- Stroke hue, mirroring `hsl(${normalizedPitch * 2}, 100%, 50%)`. -/
def strokeHue (normalizedPitch : ℚ) : ℚ := normalizedPitch * 2

/-- Final point of the path: `canvasCtx.lineTo(canvas.width, canvas.height / 2)`. -/
def closingPoint (width height : ℚ) : ℚ × ℚ := (width, height / 2)

/-- Nullability of the refs consulted by a render tick: `analyserRef.current`,
`canvasRef.current`, and the result of `canvas.getContext("2d")`. -/
structure TickRefs where
  analyserReady : Bool
  canvasReady : Bool
  ctxAvailable : Bool

/-- Whether a render tick ends with `requestAnimationFrame(updateWaveform)`,
following the control flow of `updateWaveform`: the first guard
(`!analyserRef.current || !canvasRef.current`) reschedules and returns; the
second guard (`if (!canvasCtx) return`) returns without rescheduling; the
full body ends with a reschedule. -/
def tickSchedulesNext (r : TickRefs) : Bool :=
  if !r.analyserReady || !r.canvasReady then true
  else if !r.ctxAvailable then false
  else true

/-- State of the component: the `useRef` holders (context, analyser, media
stream, pending animation frame, each modelled by whether the ref is
non-null), the reactive `isListening` / `volume` / `pitch` state, and
`liveHandles`, the number of capture streams the platform currently holds
open on behalf of the component (a stream stays open until its tracks are
stopped, even if the ref to it is overwritten). -/
structure VizState where
  audioContextHeld : Bool
  analyserHeld : Bool
  mediaStreamHeld : Bool
  animationFramePending : Bool
  isListening : Bool
  volume : ℚ
  pitch : ℚ
  liveHandles : ℕ
deriving DecidableEq

/-- Initial component state: every ref null, not listening, features zero. -/
def initState : VizState :=
  { audioContextHeld := false
    analyserHeld := false
    mediaStreamHeld := false
    animationFramePending := false
    isListening := false
    volume := 0
    pitch := 0
    liveHandles := 0 }

/-- The `startListening` handler.  `granted` records whether the platform
grants `getUserMedia({ audio: true })`.  The `AudioContext` is constructed
and stored in its ref before the capture request; on grant, the stream ref
is overwritten (any previously held stream stays open on the platform side,
hence `liveHandles + 1`), the analyser is created with `fftSize = 2048`,
`setIsListening(true)` runs, and the initial `updateWaveform()` call leaves
an animation frame scheduled.  On denial the `catch` block only logs. -/
def startListening (granted : Bool) (s : VizState) : VizState :=
  let s1 : VizState := { s with audioContextHeld := true }
  if granted then
    { s1 with
        mediaStreamHeld := true
        liveHandles := s1.liveHandles + 1
        analyserHeld := true
        isListening := true
        animationFramePending := true }
  else
    s1

/-- The `stopListening` handler: stop every track of the held stream and
null the ref, cancel a pending animation frame and null the ref, then
`setIsListening(false); setVolume(0); setPitch(0)`.  The audio context and
analyser refs are left untouched, as in the source. -/
def stopListening (s : VizState) : VizState :=
  let s1 : VizState :=
    if s.mediaStreamHeld then
      { s with liveHandles := s.liveHandles - 1, mediaStreamHeld := false }
    else s
  let s2 : VizState :=
    if s1.animationFramePending then { s1 with animationFramePending := false }
    else s1
  { s2 with isListening := false, volume := 0, pitch := 0 }

/-- The toggle button: `onClick={isListening ? stopListening : startListening}`,
the only caller of either handler in the component. -/
def buttonClick (granted : Bool) (s : VizState) : VizState :=
  if s.isListening then stopListening s else startListening granted s

/-- Session invariant tying the listening flag to the platform handle count
and the held stream ref. -/
def SessionInv (s : VizState) : Prop :=
  (s.isListening = true → s.liveHandles = 1 ∧ s.mediaStreamHeld = true) ∧
  (s.isListening = false → s.liveHandles = 0 ∧ s.mediaStreamHeld = false)

/-! ### Properties of the dominant-bin scan -/

theorem scanMaxAux_fst (l : List ℕ) :
    ∀ i mv mi, (scanMaxAux l i mv mi).1 = max mv (l.foldr max 0) := by
  induction l with
  | nil =>
    intro i mv mi
    simp [scanMaxAux]
  | cons v rest ih =>
    intro i mv mi
    by_cases hv : mv < v
    · simp only [scanMaxAux, if_pos hv, List.foldr_cons, ih]
      rw [← max_assoc, max_eq_right (le_of_lt hv)]
    · simp only [scanMaxAux, if_neg hv, List.foldr_cons, ih]
      rw [← max_assoc, max_eq_left (not_lt.mp hv)]

theorem getD_le_foldrMax (l : List ℕ) :
    ∀ j, j < l.length → l.getD j 0 ≤ l.foldr max 0 := by
  induction l with
  | nil =>
    intro j hj
    simp at hj
  | cons v rest ih =>
    intro j hj
    cases j with
    | zero => simp
    | succ j =>
      have hj2 : j < rest.length := by simpa using hj
      calc (v :: rest).getD (j + 1) 0 = rest.getD j 0 := by simp
        _ ≤ rest.foldr max 0 := ih j hj2
        _ ≤ (v :: rest).foldr max 0 := by simp

theorem scanMaxAux_snd (l : List ℕ) :
    ∀ i mv mi,
      (mv < l.foldr max 0 →
        ∃ k, k < l.length ∧ (scanMaxAux l i mv mi).2 = i + k ∧
          l.getD k 0 = (scanMaxAux l i mv mi).1 ∧
          ∀ j, j < k → l.getD j 0 < (scanMaxAux l i mv mi).1) ∧
      (¬ mv < l.foldr max 0 → (scanMaxAux l i mv mi).2 = mi) := by
  induction l with
  | nil =>
    intro i mv mi
    constructor
    · intro hlt
      simp at hlt
    · intro _
      simp [scanMaxAux]
  | cons v rest ih =>
    intro i mv mi
    by_cases hv : mv < v
    · simp only [scanMaxAux, if_pos hv, List.foldr_cons, List.length_cons]
      constructor
      · intro _
        by_cases hF : v < rest.foldr max 0
        · obtain ⟨k, hk, h2, h3, h4⟩ := (ih (i + 1) v i).1 hF
          refine ⟨k + 1, by omega, by rw [h2]; omega, by simpa using h3, ?_⟩
          intro j hj
          cases j with
          | zero =>
            simp only [List.getD_cons_zero]
            rw [scanMaxAux_fst]
            exact lt_of_lt_of_le hF (le_max_right v (rest.foldr max 0))
          | succ j =>
            simpa using h4 j (by omega)
        · have h2 := (ih (i + 1) v i).2 hF
          refine ⟨0, by omega, by rw [h2]; omega, ?_, by omega⟩
          simp only [List.getD_cons_zero]
          rw [scanMaxAux_fst]
          exact (max_eq_left (not_lt.mp hF)).symm
      · intro hnlt
        exact absurd (lt_of_lt_of_le hv (le_max_left v (rest.foldr max 0))) hnlt
    · simp only [scanMaxAux, if_neg hv, List.foldr_cons, List.length_cons]
      constructor
      · intro hlt
        have hF : mv < rest.foldr max 0 := by
          rcases le_or_lt (rest.foldr max 0) mv with h | h
          · exact absurd hlt (not_lt.mpr (max_le (not_lt.mp hv) h))
          · exact h
        obtain ⟨k, hk, h2, h3, h4⟩ := (ih (i + 1) mv mi).1 hF
        refine ⟨k + 1, by omega, by rw [h2]; omega, by simpa using h3, ?_⟩
        intro j hj
        cases j with
        | zero =>
          simp only [List.getD_cons_zero]
          rw [scanMaxAux_fst]
          exact lt_of_le_of_lt (not_lt.mp hv)
            (lt_of_lt_of_le hF (le_max_right mv (rest.foldr max 0)))
        | succ j =>
          simpa using h4 j (by omega)
      · intro hnlt
        have hF : ¬ mv < rest.foldr max 0 := fun h =>
          hnlt (lt_of_lt_of_le h (le_max_right v (rest.foldr max 0)))
        exact (ih (i + 1) mv mi).2 hF

theorem scanMax_fst_eq (l : List ℕ) : (scanMax l).1 = l.foldr max 0 := by
  rw [scanMax, scanMaxAux_fst]
  simp

theorem maxIndexOf_lt_length (l : List ℕ) (h : l ≠ []) :
    maxIndexOf l < l.length := by
  by_cases hF : 0 < l.foldr max 0
  · obtain ⟨k, hk, h2, _, _⟩ := (scanMaxAux_snd l 0 0 0).1 hF
    simp only [maxIndexOf, scanMax]
    omega
  · have h2 := (scanMaxAux_snd l 0 0 0).2 hF
    simp only [maxIndexOf, scanMax, h2]
    exact List.length_pos.mpr h

theorem maxIndexOf_attains (l : List ℕ) (h : l ≠ []) :
    l.getD (maxIndexOf l) 0 = (scanMax l).1 := by
  by_cases hF : 0 < l.foldr max 0
  · obtain ⟨k, hk, h2, h3, _⟩ := (scanMaxAux_snd l 0 0 0).1 hF
    have hmk : maxIndexOf l = k := by
      simp only [maxIndexOf, scanMax]
      omega
    rw [hmk]
    exact h3
  · have h2 := (scanMaxAux_snd l 0 0 0).2 hF
    have hmk : maxIndexOf l = 0 := by
      simp only [maxIndexOf, scanMax, h2]
    rw [hmk, scanMax_fst_eq]
    have hz : l.foldr max 0 = 0 := by omega
    have hle := getD_le_foldrMax l 0 (List.length_pos.mpr h)
    omega

theorem getD_le_scanMax_fst (l : List ℕ) (j : ℕ) (hj : j < l.length) :
    l.getD j 0 ≤ (scanMax l).1 := by
  rw [scanMax_fst_eq]
  exact getD_le_foldrMax l j hj

theorem lt_scanMax_fst_of_lt_maxIndexOf (l : List ℕ) (j : ℕ)
    (hj : j < maxIndexOf l) : l.getD j 0 < (scanMax l).1 := by
  by_cases hF : 0 < l.foldr max 0
  · obtain ⟨k, hk, h2, h3, h4⟩ := (scanMaxAux_snd l 0 0 0).1 hF
    have hmk : maxIndexOf l = k := by
      simp only [maxIndexOf, scanMax]
      omega
    exact h4 j (hmk ▸ hj)
  · have h2 := (scanMaxAux_snd l 0 0 0).2 hF
    have hmk : maxIndexOf l = 0 := by
      simp only [maxIndexOf, scanMax, h2]
    omega

theorem scanMaxAux_replicate_zero (n : ℕ) :
    ∀ i, scanMaxAux (List.replicate n 0) i 0 0 = (0, 0) := by
  induction n with
  | zero =>
    intro i
    simp [scanMaxAux]
  | succ n ih =>
    intro i
    simp only [List.replicate_succ, scanMaxAux]
    rw [if_neg (lt_irrefl 0)]
    exact ih (i + 1)

theorem maxIndexOf_replicate_zero (n : ℕ) :
    maxIndexOf (List.replicate n 0) = 0 := by
  simp [maxIndexOf, scanMax, scanMaxAux_replicate_zero n 0]

theorem normalizedPitchOf_nonneg (freq : List ℕ) :
    0 ≤ normalizedPitchOf freq := by
  rw [normalizedPitchOf]
  apply le_min
  · positivity
  · norm_num

theorem normalizedPitchOf_le_100 (freq : List ℕ) :
    normalizedPitchOf freq ≤ 100 :=
  min_le_right _ _

/-! ### Properties of the loudness computation -/

theorem sumAbsDev_eq_map_sum (l : List ℕ) :
    sumAbsDev l = (l.map fun s => |(s : ℚ) - 128|).sum := by
  induction l with
  | nil => simp [sumAbsDev]
  | cons s rest ih => simp [sumAbsDev, ih]

theorem sumAbsDev_nonneg (l : List ℕ) : 0 ≤ sumAbsDev l := by
  induction l with
  | nil => simp [sumAbsDev]
  | cons s rest ih =>
    simp only [sumAbsDev]
    exact add_nonneg (abs_nonneg _) ih

theorem loudnessOf_nonneg (data : List ℕ) : 0 ≤ loudnessOf data := by
  rw [loudnessOf]
  apply le_min
  · exact mul_nonneg
      (div_nonneg (sumAbsDev_nonneg data) (Nat.cast_nonneg _)) (by norm_num)
  · norm_num

theorem loudnessOf_le_100 (data : List ℕ) : loudnessOf data ≤ 100 :=
  min_le_right _ _

theorem sumAbsDev_replicate_128 (n : ℕ) :
    sumAbsDev (List.replicate n 128) = 0 := by
  induction n with
  | zero => simp [sumAbsDev]
  | succ n ih => simp [List.replicate_succ, sumAbsDev, ih]

theorem loudnessOf_replicate_128 (n : ℕ) :
    loudnessOf (List.replicate n 128) = 0 := by
  rw [loudnessOf, sumAbsDev_replicate_128]
  have h : (0 : ℚ) / ((List.replicate n 128).length : ℚ) * 4 = 0 := by
    simp
  rw [h]
  exact min_eq_left (by norm_num)

theorem altBuf_length (n : ℕ) : (altBuf n).length = 2 * n := by
  induction n with
  | zero => simp [altBuf]
  | succ n ih =>
    simp only [altBuf, List.length_cons, ih]
    omega

theorem sumAbsDev_altBuf (n : ℕ) : sumAbsDev (altBuf n) = 255 * (n : ℚ) := by
  induction n with
  | zero => simp [altBuf, sumAbsDev]
  | succ n ih =>
    simp only [altBuf, sumAbsDev, ih]
    have h0 : |((0 : ℕ) : ℚ) - 128| = 128 := by
      rw [abs_of_nonpos (by norm_num)]
      norm_num
    have h255 : |((255 : ℕ) : ℚ) - 128| = 127 := by
      rw [abs_of_nonneg (by norm_num)]
      norm_num
    rw [h0, h255]
    push_cast
    ring

theorem loudnessOf_altBuf (n : ℕ) : loudnessOf (altBuf (n + 1)) = 100 := by
  rw [loudnessOf, sumAbsDev_altBuf, altBuf_length]
  have hval : 255 * ((n + 1 : ℕ) : ℚ) / ((2 * (n + 1) : ℕ) : ℚ) * 4 = 510 := by
    have hn : ((n : ℚ) + 1) ≠ 0 := by positivity
    push_cast
    field_simp
    ring
  rw [hval]
  exact min_eq_right (by norm_num)

/-! ### Properties of the drawing geometry -/

theorem drawPointsAux_length (l : List ℕ) :
    ∀ x slice height ampF,
      (drawPointsAux l x slice height ampF).length = l.length := by
  induction l with
  | nil =>
    intro x slice height ampF
    simp [drawPointsAux]
  | cons v rest ih =>
    intro x slice height ampF
    simp [drawPointsAux, ih]

theorem drawPointsAux_getD (l : List ℕ) :
    ∀ x slice height ampF i, i < l.length →
      (drawPointsAux l x slice height ampF).getD i (0, 0) =
        (x + (i : ℚ) * slice,
         height / 2 + ((l.getD i 0 : ℚ) / 128 - 1) * ampF * (height / 2)) := by
  induction l with
  | nil =>
    intro x slice height ampF i hi
    simp at hi
  | cons v rest ih =>
    intro x slice height ampF i hi
    cases i with
    | zero =>
      simp only [drawPointsAux, List.getD_cons_zero]
      rw [Prod.mk.injEq]
      constructor
      · push_cast
        ring
      · ring
    | succ i =>
      have hi2 : i < rest.length := by simpa using hi
      simp only [drawPointsAux, List.getD_cons_succ]
      rw [ih (x + slice) slice height ampF i hi2, Prod.mk.injEq]
      constructor
      · push_cast
        ring
      · rfl

/-! ### Properties of the lifecycle handlers -/

theorem stopListening_eq (s : VizState) :
    stopListening s =
      { audioContextHeld := s.audioContextHeld
        analyserHeld := s.analyserHeld
        mediaStreamHeld := false
        animationFramePending := false
        isListening := false
        volume := 0
        pitch := 0
        liveHandles :=
          if s.mediaStreamHeld then s.liveHandles - 1 else s.liveHandles } := by
  by_cases h1 : s.mediaStreamHeld <;> by_cases h2 : s.animationFramePending <;>
    simp [stopListening, h1, h2]

theorem stopListening_idem (s : VizState) :
    stopListening (stopListening s) = stopListening s := by
  simp [stopListening_eq]

theorem startListening_denied (s : VizState) :
    startListening false s = { s with audioContextHeld := true } := by
  simp [startListening]

theorem startListening_granted (s : VizState) :
    startListening true s =
      { s with
          audioContextHeld := true
          mediaStreamHeld := true
          liveHandles := s.liveHandles + 1
          analyserHeld := true
          isListening := true
          animationFramePending := true } := by
  simp [startListening]

theorem buttonClick_inv (granted : Bool) (s : VizState) (h : SessionInv s) :
    SessionInv (buttonClick granted s) := by
  obtain ⟨hT, hF⟩ := h
  by_cases hl : s.isListening = true
  · simp only [buttonClick, hl, if_true]
    simp [SessionInv, stopListening_eq, (hT hl).1, (hT hl).2]
  · have hl2 : s.isListening = false := by simpa using hl
    simp only [buttonClick, hl2]
    cases granted with
    | false =>
      simp [SessionInv, startListening_denied, hl2, (hF hl2).1, (hF hl2).2]
    | true =>
      simp [SessionInv, startListening_granted, (hF hl2).1]

theorem liveHandles_le_one_of_inv (t : VizState) (h : SessionInv t) :
    t.liveHandles ≤ 1 := by
  obtain ⟨hT, hF⟩ := h
  cases hl : t.isListening with
  | false => exact (hF hl).1.le.trans (by norm_num)
  | true => exact (hT hl).1.le

theorem tickSchedulesNext_eq (r : TickRefs) :
    tickSchedulesNext r = (r.ctxAvailable || !r.analyserReady || !r.canvasReady) := by
  rcases r with ⟨a, b, c⟩
  cases a <;> cases b <;> cases c <;> decide

/-! ### Claim theorems -/

/-- C1: for every nonempty time-domain buffer of byte samples, the computed
loudness equals min((Σ |sample − 128|)/N · 4, 100); consequently loudness is
always in [0,100], an all-128 buffer yields loudness 0, and an alternating
0/255 buffer yields loudness clamped at 100. -/
theorem claim_C1 (data : List ℕ) (_h : data ≠ []) :
    loudnessOf data
        = min ((data.map fun s => |(s : ℚ) - 128|).sum / (data.length : ℚ) * 4) 100
      ∧ 0 ≤ loudnessOf data ∧ loudnessOf data ≤ 100
      ∧ (∀ n : ℕ, loudnessOf (List.replicate n 128) = 0)
      ∧ (∀ n : ℕ, loudnessOf (altBuf (n + 1)) = 100) := by
  refine ⟨?_, loudnessOf_nonneg data, loudnessOf_le_100 data,
    loudnessOf_replicate_128, loudnessOf_altBuf⟩
  rw [loudnessOf, sumAbsDev_eq_map_sum]

/-- Witness for C1 at the concrete buffer `[0, 255, 0, 255]` (= `altBuf 2`). -/
theorem claim_C1_witness :
    0 ≤ loudnessOf [0, 255, 0, 255] ∧ loudnessOf [0, 255, 0, 255] = 100 := by
  have h := claim_C1 [0, 255, 0, 255] (by simp)
  have h2 : altBuf 2 = [0, 255, 0, 255] := rfl
  exact ⟨h.2.1, by rw [← h2]; exact h.2.2.2.2 1⟩

/-- C2: for every nonempty spectrum buffer, the dominant-bin index is the
index of the maximum magnitude with first occurrence winning on ties (for
`[50, 50, 30]` the index is 0), pitchProxy equals min(maxIndex / 20, 100),
an all-zero spectrum yields pitchProxy 0, and pitchProxy is in [0,100]. -/
theorem claim_C2 (freq : List ℕ) (h : freq ≠ []) :
    maxIndexOf freq < freq.length
  ∧ (∀ j, j < freq.length → freq.getD j 0 ≤ freq.getD (maxIndexOf freq) 0)
  ∧ (∀ j, j < maxIndexOf freq → freq.getD j 0 < freq.getD (maxIndexOf freq) 0)
  ∧ maxIndexOf [50, 50, 30] = 0
  ∧ normalizedPitchOf freq = min ((maxIndexOf freq : ℚ) / 20) 100
  ∧ (∀ n : ℕ, normalizedPitchOf (List.replicate n 0) = 0)
  ∧ 0 ≤ normalizedPitchOf freq ∧ normalizedPitchOf freq ≤ 100 := by
  refine ⟨maxIndexOf_lt_length freq h, ?_, ?_, by decide, rfl, ?_,
    normalizedPitchOf_nonneg freq, normalizedPitchOf_le_100 freq⟩
  · intro j hj
    rw [maxIndexOf_attains freq h]
    exact getD_le_scanMax_fst freq j hj
  · intro j hj
    rw [maxIndexOf_attains freq h]
    exact lt_scanMax_fst_of_lt_maxIndexOf freq j hj
  · intro n
    rw [normalizedPitchOf, maxIndexOf_replicate_zero]
    have hz : ((0 : ℕ) : ℚ) / 20 = 0 := by norm_num
    rw [hz]
    exact min_eq_left (by norm_num)

/-- Witness for C2 at the concrete spectrum `[50, 50, 30]`. -/
theorem claim_C2_witness :
    maxIndexOf [50, 50, 30] = 0 ∧ normalizedPitchOf [50, 50, 30] ≤ 100 := by
  have h := claim_C2 [50, 50, 30] (by simp)
  exact ⟨h.2.2.2.1, h.2.2.2.2.2.2.2⟩

/-- C3 counterexample: the tick allocates the time-domain buffer with length
`frequencyBinCount` (1024), not the analyser window size 2048 asserted by
the claim. -/
theorem claim_C3_counterexample :
    timeBufferLength = 1024 ∧ timeBufferLength ≠ 2048 := by decide

/-- C3 (amended): on every render tick both buffers are allocated with
length `frequencyBinCount` = `fftSize` / 2 = 1024; the spectrum buffer has
length 1024 as claimed, but the time-domain buffer also has length 1024
rather than 2048. -/
theorem claim_C3 :
    fftSize = 2048
  ∧ frequencyBinCount = fftSize / 2
  ∧ freqBufferLength = 1024
  ∧ timeBufferLength = 1024
  ∧ timeBufferLength = freqBufferLength := by decide

/-- C4 counterexample: with the analyser and canvas refs set but
`canvas.getContext("2d")` returning null, the tick returns without
rescheduling, refuting the claim that every path reschedules. -/
theorem claim_C4_counterexample :
    tickSchedulesNext
      { analyserReady := true, canvasReady := true, ctxAvailable := false }
      = false := by decide

/-- C4 (amended): a render tick ends by scheduling the next tick on every
path except the one where the analyser and canvas refs are present but the
2D drawing context is unavailable; that path returns without rescheduling
(the not-yet-ready guard for a missing analyser or canvas does reschedule). -/
theorem claim_C4 (r : TickRefs) :
    tickSchedulesNext r = (r.ctxAvailable || !r.analyserReady || !r.canvasReady) :=
  tickSchedulesNext_eq r

/-- C5 counterexample: invoking `startListening` directly while already
listening opens a second capture stream — from the initial state two granted
starts leave two live device handles, refuting "the device handle count
stays 1". -/
theorem claim_C5_counterexample :
    (startListening true (startListening true initState)).liveHandles = 2 := by
  rfl

/-- C5 (amended): driven through the component's toggle button — the only
caller of the handlers, which dispatches `startListening` only when not
listening — at most one CaptureSession is live at any time: every click
preserves the session invariant and leaves the device handle count ≤ 1.
`startListening` itself has no guard against being called while listening. -/
theorem claim_C5 (granted : Bool) (s : VizState) (h : SessionInv s) :
    SessionInv (buttonClick granted s)
  ∧ (buttonClick granted s).liveHandles ≤ 1 := by
  have h2 := buttonClick_inv granted s h
  exact ⟨h2, liveHandles_le_one_of_inv _ h2⟩

/-- Witness for C5: a granted click from the initial state. -/
theorem claim_C5_witness :
    SessionInv (buttonClick true initState)
  ∧ (buttonClick true initState).liveHandles ≤ 1 := by
  apply claim_C5
  simp [SessionInv, initState]

/-- C6 counterexample: when the platform denies capture, the `AudioContext`
constructed before the `getUserMedia` request remains held in its ref, so a
resource is held after the failure, refuting "no analysis context is held". -/
theorem claim_C6_counterexample :
    (startListening false initState).audioContextHeld = true
  ∧ (startListening false initState).isListening = false := by
  exact ⟨rfl, rfl⟩

/-- C6 (amended): if `startListening` fails because the platform denies the
input device, the listening state remains "not listening" and no device
handle, stream or analyser is held — but the `AudioContext` created before
the capture request remains held (it is not released on failure). -/
theorem claim_C6 (s : VizState) (h1 : s.isListening = false)
    (h2 : s.liveHandles = 0) (h3 : s.mediaStreamHeld = false)
    (h4 : s.analyserHeld = false) :
    (startListening false s).isListening = false
  ∧ (startListening false s).liveHandles = 0
  ∧ (startListening false s).mediaStreamHeld = false
  ∧ (startListening false s).analyserHeld = false
  ∧ (startListening false s).audioContextHeld = true := by
  rw [startListening_denied]
  exact ⟨h1, h2, h3, h4, rfl⟩

/-- Witness for C6: a denied start from the initial state. -/
theorem claim_C6_witness :
    (startListening false initState).isListening = false
  ∧ (startListening false initState).audioContextHeld = true := by
  have h := claim_C6 initState rfl rfl rfl rfl
  exact ⟨h.1, h.2.2.2.2⟩

/-- C7: `stopListening` on a state satisfying the session invariant halts the
render loop (no pending animation frame), releases every device handle,
resets the feature snapshot to zero, and is idempotent: a second call
produces the same end state. -/
theorem claim_C7 (s : VizState) (h : SessionInv s) :
    (stopListening s).isListening = false
  ∧ (stopListening s).volume = 0
  ∧ (stopListening s).pitch = 0
  ∧ (stopListening s).animationFramePending = false
  ∧ (stopListening s).mediaStreamHeld = false
  ∧ (stopListening s).liveHandles = 0
  ∧ stopListening (stopListening s) = stopListening s := by
  obtain ⟨hT, hF⟩ := h
  refine ⟨by rw [stopListening_eq], by rw [stopListening_eq],
    by rw [stopListening_eq], by rw [stopListening_eq],
    by rw [stopListening_eq], ?_, stopListening_idem s⟩
  rw [stopListening_eq]
  cases hl : s.isListening with
  | false => simp [(hF hl).1, (hF hl).2]
  | true => simp [(hT hl).1, (hT hl).2]

/-- Witness for C7: stopping the session reached by a granted start from the
initial state. -/
theorem claim_C7_witness :
    (stopListening (startListening true initState)).liveHandles = 0
  ∧ stopListening (stopListening (startListening true initState))
      = stopListening (startListening true initState) := by
  have h := claim_C7 (startListening true initState)
    (by simp [SessionInv, startListening_granted, initState])
  exact ⟨h.2.2.2.2.2.1, h.2.2.2.2.2.2⟩

/-- C8: on every tick amplitudeFactor equals
(loudness/50) · (pitchProxy/50 + 0.5); loudness 50 and pitchProxy 50 give
1.5, and loudness 0 gives 0 regardless of pitchProxy. -/
theorem claim_C8 (loudness pitchProxy : ℚ) :
    amplitudeFactor loudness pitchProxy
        = loudness / 50 * (pitchProxy / 50 + 1 / 2)
  ∧ amplitudeFactor 50 50 = 3 / 2
  ∧ amplitudeFactor 0 pitchProxy = 0 := by
  refine ⟨rfl, by norm_num [amplitudeFactor], by simp [amplitudeFactor]⟩

/-- C9: for every buffer of length N, the stroked polyline vertex at index i
is (i · (width / N), centerline + ((sample/128 − 1) · amplitudeFactor) ·
(height/2)), the stroke hue is pitchProxy · 2, and the path closes to the
vertical centerline at the right edge. -/
theorem claim_C9 (data : List ℕ) (width height ampF : ℚ) :
    (drawPoints data width height ampF).length = data.length
  ∧ (∀ i, i < data.length →
      (drawPoints data width height ampF).getD i (0, 0) =
        ((i : ℚ) * (width / (data.length : ℚ)),
         height / 2 + ((data.getD i 0 : ℚ) / 128 - 1) * ampF * (height / 2)))
  ∧ (∀ p : ℚ, strokeHue p = p * 2)
  ∧ closingPoint width height = (width, height / 2) := by
  refine ⟨drawPointsAux_length data 0 _ height ampF, ?_, fun p => rfl, rfl⟩
  intro i hi
  rw [drawPoints, drawPointsAux_getD data 0 _ height ampF i hi, Prod.mk.injEq]
  exact ⟨by ring, rfl⟩

/-- Witness for C9: the single vertex drawn for the midpoint sample 128 on a
6 × 10 surface sits on the centerline at the left edge. -/
theorem claim_C9_witness :
    (drawPoints [128] 6 10 3).getD 0 (0, 0) = (0, 5) := by
  have h := (claim_C9 [128] 6 10 3).2.1 0 (by decide)
  rw [h]
  norm_num

/-- C10: because every scanned spectrum has length `freqBufferLength` = 1024,
the dominant-bin index is at most 1023, so pitchProxy never exceeds
1023/20 = 51.15 and the clamp at 100 is never active on a reachable tick. -/
theorem claim_C10 (freq : List ℕ) (h : freq.length = freqBufferLength) :
    maxIndexOf freq ≤ 1023
  ∧ normalizedPitchOf freq = (maxIndexOf freq : ℚ) / 20
  ∧ normalizedPitchOf freq ≤ 1023 / 20 := by
  have hne : freq ≠ [] := by
    intro he
    rw [he] at h
    simp [freqBufferLength, frequencyBinCount, fftSize] at h
  have hlt : maxIndexOf freq < 1024 := by
    have hx := maxIndexOf_lt_length freq hne
    rw [h] at hx
    simpa [freqBufferLength, frequencyBinCount, fftSize] using hx
  have hle : maxIndexOf freq ≤ 1023 := by omega
  have hq : (maxIndexOf freq : ℚ) ≤ 1023 := by exact_mod_cast hle
  have hdiv : (maxIndexOf freq : ℚ) / 20 ≤ 1023 / 20 := by gcongr
  have heq : normalizedPitchOf freq = (maxIndexOf freq : ℚ) / 20 := by
    rw [normalizedPitchOf]
    exact min_eq_left (hdiv.trans (by norm_num))
  exact ⟨hle, heq, heq ▸ hdiv⟩

/-- Witness for C10 at the all-zero spectrum of length 1024. -/
theorem claim_C10_witness :
    normalizedPitchOf (List.replicate 1024 0)
      = (maxIndexOf (List.replicate 1024 0) : ℚ) / 20 := by
  have h := claim_C10 (List.replicate 1024 0)
    (by rw [List.length_replicate]; rfl)
  exact h.2.1

end VoiceWave
